import Mathlib

/-!
Verification of the transfer routing and scheduling engine of this repository.

The development embeds, as executable Lean definitions:
* the weighted-topology path resolver (`get_hops`),
* the source-selection policy (`select_sources`),
* the preparer request-reduction pipeline (`reduce_requests`, `run_once`),
* the preparer and stager daemon control loops.

The resolver, source selector and request-core helpers live in
`rucio/core/transfer.py` and `rucio/core/request.py`, which are not part of
the source tree given here (only their tests in
`lib/rucio/tests/test_transfer.py` and their callers in the daemons are);
those definitions are therefore modelled from the specification and
cross-checked against every assertion of the test file.  The daemon control
flow (`lib/rucio/daemons/conveyor/preparer.py`,
`lib/rucio/daemons/conveyor/stager.py`) is embedded from the source.
-/

set_option maxRecDepth 100000

namespace Rucio

/-! ### Topology model -/

abbrev RSEId := Nat

/-- A directed distance record `(src, dst, ranking)`.  `ranking = none`
models a `NULL` cost in the topology store (the `<missing_cost>` link of the
test diagram). -/
structure DistanceEdge where
  src : RSEId
  dst : RSEId
  ranking : Option Nat
deriving DecidableEq, Repr

abbrev Topology := List DistanceEdge

/-- Modelled from the spec: "absence of an edge or a null cost means no
usable link in that direction" and "Edges with null/zero cost are excluded
from consideration entirely".  Returns the usable cost of the directed edge
`a → b`, or `none` when the edge is absent, has a null cost, or has cost 0. -/
def usableCost (g : Topology) (a b : RSEId) : Option Nat :=
  match g.find? (fun e => e.src == a && e.dst == b) with
  | some e =>
    match e.ranking with
    | some c => if c == 0 then none else some c
    | none => none
  | none => none

/-- The directed edge `a → b` is usable (present, non-null, non-zero cost). -/
def usableB (g : Topology) (a b : RSEId) : Bool :=
  (usableCost g a b).isSome

/-- One hop of a resolved transfer path, as returned by `get_hops`. -/
structure Hop where
  source_rse_id : RSEId
  dest_rse_id : RSEId
  cost : Nat
deriving DecidableEq, Repr

/-- Turn a node path `[a₀, a₁, …, aₙ]` into its hop list. -/
def hopsOf (g : Topology) : List RSEId → List Hop
  | a :: b :: rest => ⟨a, b, (usableCost g a b).getD 0⟩ :: hopsOf g (b :: rest)
  | _ => []

/-- Every consecutive pair of the node list is a usable directed edge. -/
def edgesOk (g : Topology) : List RSEId → Bool
  | a :: b :: rest => usableB g a b && edgesOk g (b :: rest)
  | _ => true

/-- The intermediate nodes of a node path (everything strictly between the
first and the last node). -/
def interm : List RSEId → List RSEId
  | _ :: rest => rest.dropLast
  | [] => []

/-- A directed edge chain from `src` to `dst` whose intermediate nodes all
belong to the multihop allow-list `allow` (endpoints are always allowed). -/
def chainB (g : Topology) (allow : List RSEId) (src dst : RSEId)
    (p : List RSEId) : Bool :=
  decide (2 ≤ p.length) && (p.head? == some src) && (p.getLast? == some dst) &&
    edgesOk g p && (interm p).all (fun x => allow.contains x)

/-- Propositional form of `chainB`. -/
def EdgeChain (g : Topology) (allow : List RSEId) (src dst : RSEId)
    (p : List RSEId) : Prop :=
  chainB g allow src dst p = true

/-- A feasible transfer path: an edge chain that visits no RSE twice
(spec invariant: "A Transfer Path never contains a cycle"). -/
def feasibleB (g : Topology) (allow : List RSEId) (src dst : RSEId)
    (p : List RSEId) : Bool :=
  chainB g allow src dst p && decide p.Nodup

/-- Propositional form of `feasibleB`. -/
def Feasible (g : Topology) (allow : List RSEId) (src dst : RSEId)
    (p : List RSEId) : Prop :=
  feasibleB g allow src dst p = true

/-- Sum of the edge costs along a node path. -/
def pathEdgeCost (g : Topology) : List RSEId → Nat
  | a :: b :: rest => (usableCost g a b).getD 0 + pathEdgeCost g (b :: rest)
  | _ => 0

/-- Modelled from the spec: "total_cost = Σ(edge costs) + (hop_count − 1) ×
HOP_PENALTY".  A node path of length `n` has `n − 1` hops. -/
def total_cost (g : Topology) (penalty : Nat) (p : List RSEId) : Nat :=
  pathEdgeCost g p + (p.length - 2) * penalty

/-- All node endpoints mentioned by the topology, without duplicates. -/
def nodesOf (g : Topology) : List RSEId :=
  (g.flatMap (fun e => [e.src, e.dst])).dedup

/-- All duplicate-free lists of elements drawn from `ns`, of length at most
`fuel`. -/
def nodupLists : List RSEId → Nat → List (List RSEId)
  | _, 0 => [[]]
  | ns, fuel + 1 =>
    [] :: ns.flatMap (fun x => (nodupLists (ns.erase x) fuel).map (fun p => x :: p))

/-- Every feasible path from `src` to `dst` through `allow`, obtained by
filtering the duplicate-free node sequences of the topology. -/
def candidates (g : Topology) (allow : List RSEId) (src dst : RSEId) :
    List (List RSEId) :=
  (nodupLists (nodesOf g) (nodesOf g).length).filter (feasibleB g allow src dst)

/-- Generic "keep the first element not strictly beaten" selection, used both
for paths and for tape sources: returns the first element of the list that no
other element strictly betters. -/
def selectBest {α : Type} (better : α → α → Bool) : List α → Option α
  | [] => none
  | x :: xs => some (xs.foldl (fun best q => if better q best then q else best) x)

/-- Modelled from the spec: path `q` is strictly preferred to path `p` when
its total cost is smaller, or costs tie and it has fewer hops ("prefer (1)
fewer hops"); remaining ties keep the first path in the canonical
enumeration order. -/
def strictlyBetterPath (g : Topology) (penalty : Nat) (q p : List RSEId) : Bool :=
  total_cost g penalty q < total_cost g penalty p ||
    (total_cost g penalty q == total_cost g penalty p && q.length < p.length)

/-- The routing failure raised when no usable route exists
(`rucio.common.exception.NoDistance`). -/
inductive TransferError where
  | NoDistance
deriving DecidableEq, Repr

/-- The hop penalty configuration constant (a fixed configuration value per
the spec; `get_hops` below takes it as an explicit parameter). -/
def HOP_PENALTY : Nat := 10

/-- Modelled from the spec: the path resolver
`rucio.core.transfer.get_hops` (not under the given source tree; only its
tests and callers are).  With an absent/empty multihop allow-list only the
direct edge is considered; otherwise the lowest-`total_cost` feasible path
restricted to allow-listed intermediates is returned, ties broken by fewer
hops and then by canonical enumeration order.  Fails with `NoDistance` when
no route exists. -/
def get_hops (g : Topology) (penalty : Nat) (source_rse_id dest_rse_id : RSEId)
    (multihop_rses : List RSEId) : Except TransferError (List Hop) :=
  if multihop_rses.isEmpty then
    match usableCost g source_rse_id dest_rse_id with
    | some c => .ok [⟨source_rse_id, dest_rse_id, c⟩]
    | none => .error .NoDistance
  else
    match selectBest (strictlyBetterPath g penalty)
        (candidates g multihop_rses source_rse_id dest_rse_id) with
    | some p => .ok (hopsOf g p)
    | none => .error .NoDistance

/-! ### Concrete topologies

`testTopology` is the graph built by `test_get_hops` in
`lib/rucio/tests/test_transfer.py` (RSE`i` ↦ node `i`), including the
cost-less `RSE2 → RSE6` link of the test's diagram.

`specExampleTopology` is the graph exactly as listed in the spec's
shortest-multihop example (`B,C,D,E,F` ↦ `1,2,3,4,5`);
`specExampleTopologyFixed` additionally has the `E→C = 10` edge that the
test the example was transcribed from contains. -/

def testTopology : Topology :=
  [⟨1, 3, some 40⟩, ⟨1, 2, some 10⟩,
   ⟨2, 1, some 10⟩, ⟨2, 4, some 10⟩,
   ⟨3, 1, some 40⟩, ⟨3, 4, some 10⟩, ⟨3, 5, some 50⟩,
   ⟨4, 2, some 10⟩, ⟨4, 5, some 10⟩,
   ⟨5, 3, some 50⟩, ⟨5, 4, some 10⟩, ⟨5, 6, some 20⟩,
   ⟨2, 6, none⟩]

def allTestRses : List RSEId := [0, 1, 2, 3, 4, 5, 6]

def specExampleTopology : Topology :=
  [⟨1, 3, some 40⟩, ⟨1, 2, some 10⟩, ⟨2, 1, some 10⟩, ⟨2, 4, some 10⟩,
   ⟨3, 1, some 40⟩, ⟨3, 4, some 10⟩, ⟨3, 5, some 50⟩]

def specExampleTopologyFixed : Topology :=
  specExampleTopology ++ [⟨4, 2, some 10⟩]

/-! ### Generic selection lemmas -/

/-- The fold underlying `selectBest` returns an element of `acc :: l` that no
element of `acc :: l` strictly betters, provided `better` is transitive and
negatively transitive and irreflexive. -/
theorem foldl_best_spec {α : Type} (better : α → α → Bool)
    (htrans : ∀ x y z, better x y = true → better y z = true → better x z = true)
    (hneg : ∀ x y z, better x y = false → better y z = false → better x z = false)
    (hirr : ∀ x, better x x = false) :
    ∀ (l : List α) (acc : α),
      (l.foldl (fun best q => if better q best then q else best) acc) ∈ acc :: l ∧
        ∀ q ∈ acc :: l,
          better q (l.foldl (fun best q => if better q best then q else best) acc) = false := by
  intro l
  induction l with
  | nil =>
    intro acc
    refine ⟨List.mem_cons_self _ _, ?_⟩
    intro q hq
    rw [List.mem_singleton] at hq
    subst hq
    exact hirr q
  | cons x xs ih =>
    intro acc
    rw [List.foldl_cons]
    by_cases hx : better x acc = true
    · rw [if_pos hx]
      obtain ⟨hmem, hall⟩ := ih x
      refine ⟨?_, ?_⟩
      · rcases List.mem_cons.mp hmem with h | h
        · rw [h]; exact List.mem_cons_of_mem _ (List.mem_cons_self _ _)
        · exact List.mem_cons_of_mem _ (List.mem_cons_of_mem _ h)
      · intro q hq
        rcases List.mem_cons.mp hq with rfl | hq'
        · -- q = acc: if acc bettered the result, then x would too, contradiction
          cases hres : better q (xs.foldl (fun best q => if better q best then q else best) x) with
          | false => rfl
          | true =>
            have hxr := htrans x q _ hx hres
            rw [hall x (List.mem_cons_self _ _)] at hxr
            cases hxr
        · exact hall q hq'
    · rw [if_neg hx]
      rw [Bool.not_eq_true] at hx
      obtain ⟨hmem, hall⟩ := ih acc
      refine ⟨?_, ?_⟩
      · rcases List.mem_cons.mp hmem with h | h
        · rw [h]; exact List.mem_cons_self _ _
        · exact List.mem_cons_of_mem _ (List.mem_cons_of_mem _ h)
      · intro q hq
        rcases List.mem_cons.mp hq with rfl | hq'
        · exact hall q (List.mem_cons_self _ _)
        · rcases List.mem_cons.mp hq' with rfl | hq''
          · exact hneg q acc _ hx (hall acc (List.mem_cons_self _ _))
          · exact hall q (List.mem_cons_of_mem _ hq'')

/-- The function `selectBest` returns a member of the list that no member
strictly betters. -/
theorem selectBest_spec {α : Type} (better : α → α → Bool)
    (htrans : ∀ x y z, better x y = true → better y z = true → better x z = true)
    (hneg : ∀ x y z, better x y = false → better y z = false → better x z = false)
    (hirr : ∀ x, better x x = false) :
    ∀ (l : List α) (r : α), selectBest better l = some r →
      r ∈ l ∧ ∀ q ∈ l, better q r = false := by
  intro l r h
  cases l with
  | nil => cases h
  | cons p rest =>
    unfold selectBest at h
    obtain ⟨hmem, hall⟩ := foldl_best_spec better htrans hneg hirr rest p
    cases h
    exact ⟨hmem, hall⟩

/-- The function `selectBest` succeeds exactly on non-empty lists. -/
theorem selectBest_eq_none {α : Type} (better : α → α → Bool) (l : List α) :
    selectBest better l = none ↔ l = [] := by
  cases l <;> simp [selectBest]

/-- The relation `strictlyBetterPath` is transitive. -/
theorem strictlyBetterPath_trans (g : Topology) (penalty : Nat) :
    ∀ x y z, strictlyBetterPath g penalty x y = true →
      strictlyBetterPath g penalty y z = true →
      strictlyBetterPath g penalty x z = true := by
  intro x y z hxy hyz
  simp only [strictlyBetterPath, Bool.or_eq_true, Bool.and_eq_true,
    decide_eq_true_eq, beq_iff_eq] at *
  omega

/-- The relation `strictlyBetterPath` is negatively transitive. -/
theorem strictlyBetterPath_negtrans (g : Topology) (penalty : Nat) :
    ∀ x y z, strictlyBetterPath g penalty x y = false →
      strictlyBetterPath g penalty y z = false →
      strictlyBetterPath g penalty x z = false := by
  intro x y z hxy hyz
  simp only [strictlyBetterPath, Bool.or_eq_false_iff, Bool.and_eq_false_iff,
    decide_eq_false_iff_not, beq_eq_false_iff_ne, ne_eq, Bool.and_eq_false_imp,
    beq_iff_eq] at *
  omega

/-- The relation `strictlyBetterPath` is irreflexive. -/
theorem strictlyBetterPath_irrefl (g : Topology) (penalty : Nat) :
    ∀ x, strictlyBetterPath g penalty x x = false := by
  intro x
  simp [strictlyBetterPath]

/-- A path that is not strictly bettered costs no more. -/
theorem total_cost_le_of_not_better {g : Topology} {penalty : Nat}
    {q p : List RSEId} (h : strictlyBetterPath g penalty q p = false) :
    total_cost g penalty p ≤ total_cost g penalty q := by
  simp only [strictlyBetterPath, Bool.or_eq_false_iff, decide_eq_false_iff_not] at h
  omega

/-! ### Resolver soundness and completeness lemmas -/

/-- A usable edge has a strictly positive cost. -/
theorem usableCost_pos {g : Topology} {a b : RSEId} {c : Nat}
    (h : usableCost g a b = some c) : 0 < c := by
  unfold usableCost at h
  split at h
  · split at h
    · split at h
      · cases h
      · next hz =>
        cases h
        simpa [Nat.pos_iff_ne_zero] using hz
    · cases h
  · cases h

/-- The endpoints of a usable edge are nodes of the topology. -/
theorem usableCost_mem_nodes {g : Topology} {a b : RSEId} {c : Nat}
    (h : usableCost g a b = some c) : a ∈ nodesOf g ∧ b ∈ nodesOf g := by
  unfold usableCost at h
  cases hf : g.find? (fun e => e.src == a && e.dst == b) with
  | none => rw [hf] at h; cases h
  | some e =>
    have he : e ∈ g := List.mem_of_find?_eq_some hf
    have hp := List.find?_some hf
    simp only [Bool.and_eq_true, beq_iff_eq] at hp
    obtain ⟨ha, hb⟩ := hp
    constructor
    · unfold nodesOf
      rw [List.mem_dedup]
      exact List.mem_flatMap.mpr ⟨e, he, by simp [ha]⟩
    · unfold nodesOf
      rw [List.mem_dedup]
      exact List.mem_flatMap.mpr ⟨e, he, by simp [hb]⟩

/-- Every node of a usable edge chain of length ≥ 2 is a node of the
topology. -/
theorem edgesOk_mem_nodes {g : Topology} :
    ∀ (p : List RSEId), edgesOk g p = true → 2 ≤ p.length →
      ∀ x ∈ p, x ∈ nodesOf g := by
  intro p
  induction p with
  | nil => intro _ h2; simp at h2
  | cons a rest ih =>
    intro hok h2 x hx
    cases rest with
    | nil => simp at h2
    | cons b rest' =>
      rw [show edgesOk g (a :: b :: rest') = (usableB g a b && edgesOk g (b :: rest')) from rfl,
        Bool.and_eq_true] at hok
      obtain ⟨hab, hrest⟩ := hok
      obtain ⟨c, hc⟩ := Option.isSome_iff_exists.mp hab
      obtain ⟨hma, hmb⟩ := usableCost_mem_nodes hc
      rcases List.mem_cons.mp hx with rfl | hx'
      · exact hma
      · cases rest' with
        | nil =>
          rw [List.mem_singleton] at hx'
          subst hx'
          exact hmb
        | cons d rest'' => exact ih hrest (by simp) x hx'

/-- Completeness of the duplicate-free sequence enumeration. -/
theorem mem_nodupLists :
    ∀ (p ns : List RSEId) (fuel : Nat), p.Nodup → (∀ x ∈ p, x ∈ ns) →
      p.length ≤ fuel → p ∈ nodupLists ns fuel := by
  intro p
  induction p with
  | nil =>
    intro ns fuel _ _ _
    cases fuel <;> simp [nodupLists]
  | cons a t ih =>
    intro ns fuel hnd hsub hlen
    cases fuel with
    | zero => simp at hlen
    | succ f =>
      have hmem : a ∈ ns := hsub a (List.mem_cons_self a t)
      have htn : t.Nodup := hnd.of_cons
      have hts : ∀ x ∈ t, x ∈ ns.erase a := by
        intro x hx
        have hne : x ≠ a := by
          intro h
          subst h
          exact (List.nodup_cons.mp hnd).1 hx
        exact (List.mem_erase_of_ne hne).mpr (hsub x (List.mem_cons_of_mem a hx))
      have htl : t.length ≤ f := by
        simpa using hlen
      have hrec := ih (ns.erase a) f htn hts htl
      unfold nodupLists
      rw [List.mem_cons]
      refine Or.inr (List.mem_flatMap.mpr ⟨a, hmem, ?_⟩)
      exact List.mem_map.mpr ⟨t, hrec, rfl⟩

/-- Unpacked form of a feasible path. -/
theorem feasible_parts {g : Topology} {allow : List RSEId} {s d : RSEId}
    {p : List RSEId} (h : Feasible g allow s d p) :
    2 ≤ p.length ∧ p.head? = some s ∧ p.getLast? = some d ∧
      edgesOk g p = true ∧ (∀ x ∈ interm p, x ∈ allow) ∧ p.Nodup := by
  unfold Feasible feasibleB chainB at h
  simp only [Bool.and_eq_true, decide_eq_true_eq, beq_iff_eq, List.all_eq_true,
    List.elem_iff] at h
  obtain ⟨⟨⟨⟨⟨h1, h2⟩, h3⟩, h4⟩, h5⟩, h6⟩ := h
  exact ⟨h1, h2, h3, h4, fun x hx => by simpa using h5 x hx, h6⟩

/-- Every feasible path appears in the candidate enumeration. -/
theorem feasible_mem_candidates {g : Topology} {allow : List RSEId}
    {s d : RSEId} {p : List RSEId} (h : Feasible g allow s d p) :
    p ∈ candidates g allow s d := by
  obtain ⟨hlen, _, _, hok, _, hnd⟩ := feasible_parts h
  have hsub : ∀ x ∈ p, x ∈ nodesOf g := edgesOk_mem_nodes p hok hlen
  have hle : p.length ≤ (nodesOf g).length := (hnd.subperm hsub).length_le
  exact List.mem_filter.mpr ⟨mem_nodupLists p _ _ hnd hsub hle, h⟩

/-- Every candidate is feasible. -/
theorem candidates_sound {g : Topology} {allow : List RSEId} {s d : RSEId}
    {p : List RSEId} (h : p ∈ candidates g allow s d) :
    Feasible g allow s d p := by
  exact (List.mem_filter.mp h).2

/-- Every hop of a usable edge chain records the exact usable cost of its
edge, which is strictly positive. -/
theorem hopsOf_sound {g : Topology} :
    ∀ (p : List RSEId), edgesOk g p = true →
      ∀ h ∈ hopsOf g p,
        usableCost g h.source_rse_id h.dest_rse_id = some h.cost ∧ 0 < h.cost := by
  intro p
  induction p with
  | nil => intro _ h hh; simp [hopsOf] at hh
  | cons a rest ih =>
    intro hok h hh
    cases rest with
    | nil => simp [hopsOf] at hh
    | cons b rest' =>
      rw [show edgesOk g (a :: b :: rest') = (usableB g a b && edgesOk g (b :: rest')) from rfl,
        Bool.and_eq_true] at hok
      obtain ⟨hab, hrest⟩ := hok
      obtain ⟨c, hc⟩ := Option.isSome_iff_exists.mp hab
      rw [show hopsOf g (a :: b :: rest') =
        (⟨a, b, (usableCost g a b).getD 0⟩ : Hop) :: hopsOf g (b :: rest') from rfl] at hh
      rcases List.mem_cons.mp hh with rfl | hh'
      · refine ⟨?_, ?_⟩
        · simp [hc]
        · simpa [hc] using usableCost_pos hc
      · exact ih hrest h hh'

/-- With an empty allow-list every edge chain is the two-node direct path. -/
theorem chain_empty_allow {g : Topology} {s d : RSEId} {p : List RSEId}
    (h : EdgeChain g [] s d p) : p = [s, d] := by
  unfold EdgeChain chainB at h
  simp only [Bool.and_eq_true, decide_eq_true_eq, beq_iff_eq, List.all_eq_true,
    List.elem_iff] at h
  obtain ⟨⟨⟨⟨h1, h2⟩, h3⟩, _⟩, h5⟩ := h
  have hint : interm p = [] := by
    cases hi : interm p with
    | nil => rfl
    | cons y ys =>
      have := h5 y (by rw [hi]; exact List.mem_cons_self _ _)
      simp at this
  cases p with
  | nil => simp at h1
  | cons a rest =>
    cases rest with
    | nil => simp at h1
    | cons b rest' =>
      cases rest' with
      | nil =>
        simp only [List.head?] at h2
        have hb : b = d := by simpa using h3
        have ha : a = s := by simpa using h2
        rw [ha, hb]
      | cons c rest'' =>
        rw [show interm (a :: b :: c :: rest'') = (b :: c :: rest'').dropLast from rfl] at hint
        simp [List.dropLast] at hint

/-- A feasible path is in particular an edge chain. -/
theorem feasible_chain {g : Topology} {allow : List RSEId} {s d : RSEId}
    {p : List RSEId} (h : Feasible g allow s d p) : EdgeChain g allow s d p := by
  unfold Feasible feasibleB at h
  rw [Bool.and_eq_true] at h
  exact h.1

/-- The direct two-node path over a usable edge between distinct RSEs is
feasible for any allow-list. -/
theorem feasible_direct {g : Topology} {allow : List RSEId} {s d : RSEId}
    {c : Nat} (hne : s ≠ d) (hc : usableCost g s d = some c) :
    Feasible g allow s d [s, d] := by
  simp [Feasible, feasibleB, chainB, edgesOk, usableB, interm, hc, hne]

/-- Cost of the direct two-node path. -/
theorem total_cost_direct {g : Topology} {penalty : Nat} {s d : RSEId}
    {c : Nat} (hc : usableCost g s d = some c) :
    total_cost g penalty [s, d] = c := by
  simp [total_cost, pathEdgeCost, hc]

/-- Soundness and optimality of `get_hops`: a successful resolution returns
the hop list of a feasible path of minimal total cost among all feasible
paths. -/
theorem get_hops_ok_sound {g : Topology} {pen : Nat} {s d : RSEId}
    {allow : List RSEId} {hops : List Hop} (hne : s ≠ d)
    (h : get_hops g pen s d allow = .ok hops) :
    ∃ p, Feasible g allow s d p ∧ hops = hopsOf g p ∧
      ∀ q, Feasible g allow s d q → total_cost g pen p ≤ total_cost g pen q := by
  unfold get_hops at h
  split at h
  · next hemp =>
    cases hc : usableCost g s d with
    | none => rw [hc] at h; cases h
    | some c =>
      rw [hc] at h
      cases h
      refine ⟨[s, d], feasible_direct hne hc, by simp [hopsOf, hc], ?_⟩
      intro q hq
      have hallow : allow = [] := List.isEmpty_iff.mp hemp
      have hq' : q = [s, d] := chain_empty_allow (hallow ▸ feasible_chain hq)
      rw [hq']
  · cases hp : selectBest (strictlyBetterPath g pen) (candidates g allow s d) with
    | none => rw [hp] at h; cases h
    | some p =>
      rw [hp] at h
      cases h
      obtain ⟨hmem, hall⟩ := selectBest_spec _ (strictlyBetterPath_trans g pen)
        (strictlyBetterPath_negtrans g pen) (strictlyBetterPath_irrefl g pen) _ _ hp
      refine ⟨p, candidates_sound hmem, rfl, ?_⟩
      intro q hq
      exact total_cost_le_of_not_better (hall q (feasible_mem_candidates hq))

/-- Completeness of `get_hops` failure: when no directed edge chain from
`s` to `d` through the allow-list exists, resolution fails with
`NoDistance`. -/
theorem get_hops_no_chain {g : Topology} {pen : Nat} {s d : RSEId}
    {allow : List RSEId} (h : ¬ ∃ p, EdgeChain g allow s d p) :
    get_hops g pen s d allow = .error .NoDistance := by
  unfold get_hops
  split
  · cases hc : usableCost g s d with
    | none => rfl
    | some c =>
      exact absurd ⟨[s, d], by simp [EdgeChain, chainB, edgesOk, usableB, interm, hc]⟩ h
  · cases hp : selectBest (strictlyBetterPath g pen) (candidates g allow s d) with
    | none => rfl
    | some p =>
      exfalso
      obtain ⟨hmem, _⟩ := selectBest_spec _ (strictlyBetterPath_trans g pen)
        (strictlyBetterPath_negtrans g pen) (strictlyBetterPath_irrefl g pen) _ _ hp
      exact h ⟨p, feasible_chain (candidates_sound hmem)⟩

/-- Every hop of a successful resolution is a usable edge whose recorded
cost is the stored cost, strictly positive: null- and zero-cost edges never
occur in a returned path. -/
theorem get_hops_hops_usable {g : Topology} {pen : Nat} {s d : RSEId}
    {allow : List RSEId} {hops : List Hop}
    (h : get_hops g pen s d allow = .ok hops) :
    ∀ hp ∈ hops,
      usableCost g hp.source_rse_id hp.dest_rse_id = some hp.cost ∧ 0 < hp.cost := by
  unfold get_hops at h
  split at h
  · cases hc : usableCost g s d with
    | none => rw [hc] at h; cases h
    | some c =>
      rw [hc] at h
      cases h
      intro hp hhp
      rw [List.mem_singleton] at hhp
      subst hhp
      exact ⟨hc, usableCost_pos hc⟩
  · cases hsel : selectBest (strictlyBetterPath g pen) (candidates g allow s d) with
    | none => rw [hsel] at h; cases h
    | some p =>
      rw [hsel] at h
      cases h
      obtain ⟨hmem, _⟩ := selectBest_spec _ (strictlyBetterPath_trans g pen)
        (strictlyBetterPath_negtrans g pen) (strictlyBetterPath_irrefl g pen) _ _ hsel
      obtain ⟨_, _, _, hok, _, _⟩ := feasible_parts (candidates_sound hmem)
      exact hopsOf_sound p hok

/-- The empty topology admits no edge chain at all. -/
theorem no_chain_nil_topology {allow : List RSEId} {s d : RSEId} :
    ¬ ∃ p, EdgeChain ([] : Topology) allow s d p := by
  rintro ⟨p, hp⟩
  simp only [EdgeChain, chainB, Bool.and_eq_true, decide_eq_true_eq] at hp
  obtain ⟨⟨⟨⟨h1, _⟩, _⟩, h4⟩, _⟩ := hp
  cases p with
  | nil => simp at h1
  | cons a rest =>
    cases rest with
    | nil => simp at h1
    | cons b rest' =>
      simp [edgesOk, usableB, usableCost] at h4

/-- A small topology whose only direct `1 → 2` link has cost zero; the
usable route is the two-hop path through `3`. -/
def zeroCostTopology : Topology :=
  [⟨1, 2, some 0⟩, ⟨1, 3, some 5⟩, ⟨3, 2, some 5⟩]

/-! ### Claims C1, C3, C5, C6 — the path resolver -/

/-- C1, counterexample: on the spec's example graph exactly as listed
(edges `B→D=40, B→C=10, C→B=10, C→E=10, D→B=40, D→E=10, D→F=50`, with
`B,C,D,E,F ↦ 1,2,3,4,5`), resolving `D → C` returns the path
`D→B, B→C` of cost 50, not the claimed `D→E, E→C` — the listed edge set
has no `E→C` edge, so the claimed two-hop path is not even feasible. -/
theorem C1_spec_example_counterexample :
    get_hops specExampleTopology 10 3 2 [1, 2, 3, 4, 5] =
        .ok [⟨3, 1, 40⟩, ⟨1, 2, 10⟩] ∧
      get_hops specExampleTopology 10 3 2 [1, 2, 3, 4, 5] ≠
        .ok [⟨3, 4, 10⟩, ⟨4, 2, 10⟩] := by
  refine ⟨rfl, ?_⟩
  intro h
  rw [show get_hops specExampleTopology 10 3 2 [1, 2, 3, 4, 5] =
    .ok [⟨3, 1, 40⟩, ⟨1, 2, 10⟩] from rfl] at h
  injection h with h'
  exact absurd h' (by decide)

/-- C1 (amended): for every topology, penalty, allow-list and pair of
distinct RSEs, a successful `get_hops` returns the hop list of a feasible
path whose `total_cost` is minimal among all feasible (cycle-free) paths;
in particular, on the spec's example graph completed with the `E→C=10`
edge it was transcribed from, resolving `D → C` with allow-list
`{B,C,D,E,F}` returns the two-hop path `D→E, E→C` of cost 20 rather than
`D→B, B→C` of cost 50. -/
theorem C1_get_hops_minimal_cost :
    (∀ (g : Topology) (pen : Nat) (s d : RSEId) (allow : List RSEId)
        (hops : List Hop), s ≠ d → get_hops g pen s d allow = .ok hops →
        ∃ p, Feasible g allow s d p ∧ hops = hopsOf g p ∧
          ∀ q, Feasible g allow s d q →
            total_cost g pen p ≤ total_cost g pen q) ∧
      get_hops specExampleTopologyFixed 10 3 2 [1, 2, 3, 4, 5] =
        .ok [⟨3, 4, 10⟩, ⟨4, 2, 10⟩] ∧
      total_cost specExampleTopologyFixed 0 [3, 4, 2] = 20 ∧
      total_cost specExampleTopologyFixed 0 [3, 1, 2] = 50 := by
  refine ⟨?_, rfl, rfl, rfl⟩
  intro g pen s d allow hops hne h
  exact get_hops_ok_sound hne h

/-- C1, witness: the general minimality statement applied to the completed
example graph. -/
theorem C1_get_hops_minimal_cost_witness :
    ∃ p, Feasible specExampleTopologyFixed [1, 2, 3, 4, 5] 3 2 p ∧
      [(⟨3, 4, 10⟩ : Hop), ⟨4, 2, 10⟩] = hopsOf specExampleTopologyFixed p ∧
      ∀ q, Feasible specExampleTopologyFixed [1, 2, 3, 4, 5] 3 2 q →
        total_cost specExampleTopologyFixed 10 p ≤
          total_cost specExampleTopologyFixed 10 q :=
  C1_get_hops_minimal_cost.1 specExampleTopologyFixed 10 3 2 [1, 2, 3, 4, 5]
    [⟨3, 4, 10⟩, ⟨4, 2, 10⟩] (by decide) rfl

/-- C3: whenever no directed edge chain connects the source to the
destination (directly or through allow-listed intermediates), `get_hops`
fails with `NoDistance`; concretely, on the test topology: an edge stored
only as `RSE5→RSE6` never satisfies `RSE6→RSE5` even with all RSEs
allow-listed, and the isolated `RSE0` is unreachable both with multihop
enabled and disabled. -/
theorem C3_no_route_fails :
    (∀ (g : Topology) (pen : Nat) (s d : RSEId) (allow : List RSEId),
        (¬ ∃ p, EdgeChain g allow s d p) →
        get_hops g pen s d allow = .error .NoDistance) ∧
      get_hops testTopology 10 6 5 allTestRses = .error .NoDistance ∧
      get_hops testTopology 10 6 5 [] = .error .NoDistance ∧
      get_hops testTopology 10 0 1 allTestRses = .error .NoDistance ∧
      get_hops testTopology 10 0 1 [] = .error .NoDistance ∧
      get_hops testTopology 10 1 0 allTestRses = .error .NoDistance ∧
      get_hops testTopology 10 1 0 [] = .error .NoDistance := by
  refine ⟨?_, rfl, rfl, rfl, rfl, rfl, rfl⟩
  intro g pen s d allow h
  exact get_hops_no_chain h

/-- C3, witness: the general no-route statement applied to the empty
topology. -/
theorem C3_no_route_fails_witness :
    get_hops [] 10 6 5 [1, 2] = .error .NoDistance :=
  C3_no_route_fails.1 [] 10 6 5 [1, 2] no_chain_nil_topology

/-- C5: with an absent/empty multihop allow-list `get_hops` considers only
the direct edge — one hop when it is usable, `NoDistance` otherwise,
regardless of multihop routes; concretely on the test topology `RSE3→RSE2`
fails without an allow-list although the multihop route `3→4→2` exists. -/
theorem C5_empty_allowlist_direct_only :
    (∀ (g : Topology) (pen : Nat) (s d : RSEId) (c : Nat),
        usableCost g s d = some c →
        get_hops g pen s d [] = .ok [⟨s, d, c⟩]) ∧
      (∀ (g : Topology) (pen : Nat) (s d : RSEId),
        usableCost g s d = none →
        get_hops g pen s d [] = .error .NoDistance) ∧
      get_hops testTopology 10 1 2 [] = .ok [⟨1, 2, 10⟩] ∧
      get_hops testTopology 10 3 2 [] = .error .NoDistance ∧
      get_hops testTopology 10 3 2 allTestRses =
        .ok [⟨3, 4, 10⟩, ⟨4, 2, 10⟩] := by
  refine ⟨?_, ?_, rfl, rfl, rfl⟩
  · intro g pen s d c hc
    simp [get_hops, hc]
  · intro g pen s d hc
    simp [get_hops, hc]

/-- C5, witness: the direct-edge statement applied to the test topology. -/
theorem C5_empty_allowlist_direct_only_witness :
    get_hops testTopology 10 1 2 [] = .ok [⟨1, 2, 10⟩] :=
  C5_empty_allowlist_direct_only.1 testTopology 10 1 2 10 rfl

/-- C6: every hop of every path returned by `get_hops` is a stored edge
with a non-null, strictly positive cost, so null/zero-cost edges are never
used; concretely the cost-less direct `RSE2→RSE6` link is ignored in favour
of the three-hop route, a zero-cost direct link is bypassed by a costlier
usable path, and a topology offering only a zero-cost link yields
`NoDistance`. -/
theorem C6_null_zero_cost_edges_never_used :
    (∀ (g : Topology) (pen : Nat) (s d : RSEId) (allow : List RSEId)
        (hops : List Hop), get_hops g pen s d allow = .ok hops →
        ∀ hp ∈ hops,
          usableCost g hp.source_rse_id hp.dest_rse_id = some hp.cost ∧
            0 < hp.cost) ∧
      get_hops testTopology 10 2 6 allTestRses =
        .ok [⟨2, 4, 10⟩, ⟨4, 5, 10⟩, ⟨5, 6, 20⟩] ∧
      get_hops zeroCostTopology 10 1 2 [3] = .ok [⟨1, 3, 5⟩, ⟨3, 2, 5⟩] ∧
      get_hops [⟨1, 2, some 0⟩] 10 1 2 [] = .error .NoDistance ∧
      get_hops [⟨1, 2, none⟩] 10 1 2 [] = .error .NoDistance := by
  refine ⟨?_, rfl, rfl, rfl, rfl⟩
  intro g pen s d allow hops h
  exact get_hops_hops_usable h

/-- C6, witness: the usable-hop statement applied to the first hop of the
three-hop route around the cost-less link. -/
theorem C6_null_zero_cost_edges_never_used_witness :
    usableCost testTopology 2 4 = some 10 ∧ 0 < 10 :=
  C6_null_zero_cost_edges_never_used.1 testTopology 10 2 6 allTestRses
    [⟨2, 4, 10⟩, ⟨4, 5, 10⟩, ⟨5, 6, 20⟩] rfl ⟨2, 4, 10⟩ (by decide)

/-! ### Claim C4 — hop penalty -/

/-- A parametric topology with a direct edge `0→2` of cost `d` and a
two-hop alternative `0→1→2` of costs `e1`, `e2`. -/
def triangleTopology (d e1 e2 : Nat) : Topology :=
  [⟨0, 2, some d⟩, ⟨0, 1, some e1⟩, ⟨1, 2, some e2⟩]

/-- C4: path choice between a single-hop and a multihop alternative follows
`total_cost = Σ(edge costs) + (hop_count − 1) × penalty`: on the triangle
topology the two-hop path `0→1→2` is returned exactly when
`e1 + e2 + penalty < d`, and the direct hop `0→2` otherwise (a tie keeps
the single hop — fewer hops). -/
theorem C4_hop_penalty_cost_function (pen d e1 e2 : Nat)
    (hd : 0 < d) (he1 : 0 < e1) (he2 : 0 < e2) :
    get_hops (triangleTopology d e1 e2) pen 0 2 [1] =
      if e1 + e2 + pen < d then .ok [⟨0, 1, e1⟩, ⟨1, 2, e2⟩]
      else .ok [⟨0, 2, d⟩] := by
  have hd0 : (d == 0) = false := beq_eq_false_iff_ne.mpr (Nat.pos_iff_ne_zero.mp hd)
  have he10 : (e1 == 0) = false := beq_eq_false_iff_ne.mpr (Nat.pos_iff_ne_zero.mp he1)
  have he20 : (e2 == 0) = false := beq_eq_false_iff_ne.mpr (Nat.pos_iff_ne_zero.mp he2)
  have hu02 : usableCost (triangleTopology d e1 e2) 0 2 = some d := by
    rw [show usableCost (triangleTopology d e1 e2) 0 2 =
      (if d == 0 then none else some d) from rfl, hd0]
    rfl
  have hu01 : usableCost (triangleTopology d e1 e2) 0 1 = some e1 := by
    rw [show usableCost (triangleTopology d e1 e2) 0 1 =
      (if e1 == 0 then none else some e1) from rfl, he10]
    rfl
  have hu12 : usableCost (triangleTopology d e1 e2) 1 2 = some e2 := by
    rw [show usableCost (triangleTopology d e1 e2) 1 2 =
      (if e2 == 0 then none else some e2) from rfl, he20]
    rfl
  have hu10 : usableCost (triangleTopology d e1 e2) 1 0 = none := rfl
  have hu20 : usableCost (triangleTopology d e1 e2) 2 0 = none := rfl
  have hu21 : usableCost (triangleTopology d e1 e2) 2 1 = none := rfl
  have hcand : candidates (triangleTopology d e1 e2) [1] 0 2 = [[0, 1, 2], [0, 2]] := by
    unfold candidates
    rw [show nodesOf (triangleTopology d e1 e2) = [0, 1, 2] from rfl]
    rw [show (([0, 1, 2] : List RSEId)).length = 3 from rfl]
    rw [show nodupLists [0, 1, 2] 3 =
      [[], [0], [0, 1], [0, 1, 2], [0, 2], [0, 2, 1],
       [1], [1, 0], [1, 0, 2], [1, 2], [1, 2, 0],
       [2], [2, 0], [2, 0, 1], [2, 1], [2, 1, 0]] from rfl]
    simp [feasibleB, chainB, edgesOk, usableB, interm,
      hu02, hu01, hu12, hu10, hu20, hu21]
  unfold get_hops
  rw [show (([1] : List RSEId)).isEmpty = false from rfl]
  simp only [Bool.false_eq_true, if_false]
  rw [hcand]
  unfold selectBest
  dsimp only [List.foldl]
  have hc2 : total_cost (triangleTopology d e1 e2) pen [0, 2] = d := by
    simp [total_cost, pathEdgeCost, hu02]
  have hc3 : total_cost (triangleTopology d e1 e2) pen [0, 1, 2] = e1 + e2 + pen := by
    simp [total_cost, pathEdgeCost, hu01, hu12]
  have hh2 : hopsOf (triangleTopology d e1 e2) [0, 2] = [⟨0, 2, d⟩] := by
    simp [hopsOf, hu02]
  have hh3 : hopsOf (triangleTopology d e1 e2) [0, 1, 2] =
      [⟨0, 1, e1⟩, ⟨1, 2, e2⟩] := by
    simp [hopsOf, hu01, hu12]
  by_cases hlt : e1 + e2 + pen < d
  · have hb : strictlyBetterPath (triangleTopology d e1 e2) pen [0, 2] [0, 1, 2] = false := by
      simp only [strictlyBetterPath, hc2, hc3, List.length_cons, List.length_nil]
      simp only [Bool.or_eq_false_iff, Bool.and_eq_false_iff]
      constructor
      · simp only [decide_eq_false_iff_not]
        omega
      · left
        simp only [beq_eq_false_iff_ne, ne_eq]
        omega
    rw [hb, if_pos hlt]
    simp [hh3]
  · have hb : strictlyBetterPath (triangleTopology d e1 e2) pen [0, 2] [0, 1, 2] = true := by
      simp only [strictlyBetterPath, hc2, hc3, List.length_cons, List.length_nil,
        Bool.or_eq_true, Bool.and_eq_true, decide_eq_true_eq, beq_iff_eq]
      omega
    rw [hb, if_neg hlt]
    simp [hh2]

/-- C4, witness: with penalty 10, a direct cost 30 against a 10+10 two-hop
alternative keeps the single hop (tie on total cost, fewer hops), while a
direct cost 200 yields the two-hop path. -/
theorem C4_hop_penalty_cost_function_witness :
    get_hops (triangleTopology 30 10 10) 10 0 2 [1] = .ok [⟨0, 2, 30⟩] ∧
      get_hops (triangleTopology 200 10 10) 10 0 2 [1] =
        .ok [⟨0, 1, 10⟩, ⟨1, 2, 10⟩] := by
  constructor
  · have h := C4_hop_penalty_cost_function 10 30 10 10 (by decide) (by decide) (by decide)
    simpa using h
  · have h := C4_hop_penalty_cost_function 10 200 10 10 (by decide) (by decide) (by decide)
    simpa using h

/-! ### Source selector (claim C2) -/

/-- A candidate replica source record for a request:
`(rse_id, ranking, distance, tape-backed?)`.  `ranking` is an
externally-maintained preference score (higher = more preferred; the tests
push it to `-1`, hence `Int`). -/
structure Source where
  rse_id : Nat
  ranking : Int
  distance : Nat
  is_tape : Bool
deriving DecidableEq, Repr

/-- Modelled from the spec: the ordering used for disk sources — ranking
descending, distance ascending as tie-break. -/
def diskOrder (a b : Source) : Prop :=
  b.ranking < a.ranking ∨ (a.ranking = b.ranking ∧ a.distance ≤ b.distance)

instance : DecidableRel diskOrder := fun a b => by
  unfold diskOrder
  exact inferInstance

/-- Modelled from the spec: strict preference between tape sources —
strictly higher ranking, or equal ranking and strictly smaller distance. -/
def betterSource (a b : Source) : Bool :=
  (b.ranking < a.ranking) || (a.ranking == b.ranking && a.distance < b.distance)

/-- The relation `betterSource` is transitive. -/
theorem betterSource_trans :
    ∀ x y z, betterSource x y = true → betterSource y z = true →
      betterSource x z = true := by
  intro x y z hxy hyz
  simp only [betterSource, Bool.or_eq_true, Bool.and_eq_true,
    decide_eq_true_eq, beq_iff_eq] at *
  omega

/-- The relation `betterSource` is negatively transitive. -/
theorem betterSource_negtrans :
    ∀ x y z, betterSource x y = false → betterSource y z = false →
      betterSource x z = false := by
  intro x y z hxy hyz
  simp only [betterSource, Bool.or_eq_false_iff, Bool.and_eq_false_imp,
    decide_eq_false_iff_not, decide_eq_true_eq, beq_iff_eq] at *
  omega

/-- The relation `betterSource` is irreflexive. -/
theorem betterSource_irrefl : ∀ x, betterSource x x = false := by
  intro x
  simp [betterSource]

/-- Modelled from the spec: the Source Selector (§4.2) of
`rucio.core.transfer` (not under the given source tree; exercised by
`test_disk_vs_tape_priority`).  If any disk-backed source is eligible, all
eligible disk sources are attached, ordered ranking-descending then
distance-ascending, and no tape source; otherwise exactly one tape source
is selected — the highest-ranked, ties broken by smaller distance. -/
def select_sources (eligible : List Source) : List Source :=
  if (eligible.filter (fun s => !s.is_tape)).isEmpty then
    match selectBest betterSource (eligible.filter (fun s => s.is_tape)) with
    | some t => [t]
    | none => []
  else
    (eligible.filter (fun s => !s.is_tape)).insertionSort diskOrder

/-- C2: with at least one eligible disk source, the selector attaches
exactly the eligible disk sources (as a permutation — they are merely
reordered) and no tape source; with no disk source it selects exactly one
tape source, maximal by ranking with ties broken by smaller distance; and
the selection never contains more than one tape source. -/
theorem C2_disk_preferred_tape_exclusive :
    ∀ (eligible : List Source),
      ((eligible.filter (fun s => !s.is_tape)) ≠ [] →
        (select_sources eligible).Perm (eligible.filter (fun s => !s.is_tape)) ∧
          ∀ s ∈ select_sources eligible, s.is_tape = false) ∧
      ((eligible.filter (fun s => !s.is_tape)) = [] →
        (eligible.filter (fun s => s.is_tape)) ≠ [] →
        ∃ t, select_sources eligible = [t] ∧ t ∈ eligible ∧ t.is_tape = true ∧
          ∀ u ∈ eligible, u.is_tape = true →
            u.ranking ≤ t.ranking ∧
              (u.ranking = t.ranking → t.distance ≤ u.distance)) ∧
      ((select_sources eligible).filter (fun s => s.is_tape)).length ≤ 1 := by
  intro eligible
  refine ⟨?_, ?_, ?_⟩
  · intro hne
    have hemp : (eligible.filter (fun s => !s.is_tape)).isEmpty = false := by
      rw [Bool.eq_false_iff]
      intro h
      exact hne (List.isEmpty_iff.mp h)
    unfold select_sources
    rw [hemp]
    simp only [Bool.false_eq_true, if_false]
    refine ⟨List.perm_insertionSort _ _, ?_⟩
    intro s hs
    rw [List.mem_insertionSort] at hs
    have := (List.mem_filter.mp hs).2
    simpa using this
  · intro hd ht
    unfold select_sources
    rw [hd]
    simp only [List.isEmpty_nil, if_true]
    cases hsel : selectBest betterSource (eligible.filter (fun s => s.is_tape)) with
    | none => exact absurd ((selectBest_eq_none _ _).mp hsel) ht
    | some t =>
      obtain ⟨hmem, hall⟩ := selectBest_spec betterSource betterSource_trans
        betterSource_negtrans betterSource_irrefl _ _ hsel
      refine ⟨t, rfl, (List.mem_filter.mp hmem).1, ?_, ?_⟩
      · simpa using (List.mem_filter.mp hmem).2
      · intro u hu hut
        have hu' : u ∈ eligible.filter (fun s => s.is_tape) :=
          List.mem_filter.mpr ⟨hu, by simpa using hut⟩
        have := hall u hu'
        simp only [betterSource, Bool.or_eq_false_iff, Bool.and_eq_false_imp,
          decide_eq_false_iff_not, decide_eq_true_eq, beq_iff_eq] at this
        omega
  · unfold select_sources
    cases hemp : (eligible.filter (fun s => !s.is_tape)).isEmpty with
    | true =>
      simp only [hemp, if_true]
      cases hsel : selectBest betterSource (eligible.filter (fun s => s.is_tape)) with
      | none => simp
      | some t =>
        calc ((([t] : List Source)).filter (fun s => s.is_tape)).length
            ≤ (([t] : List Source)).length := List.length_filter_le _ _
          _ = 1 := rfl
    | false =>
      simp only [hemp, Bool.false_eq_true, if_false]
      have hnil : ((eligible.filter (fun s => !s.is_tape)).insertionSort
          diskOrder).filter (fun s => s.is_tape) = [] := by
        rw [List.filter_eq_nil_iff]
        intro a ha
        rw [List.mem_insertionSort] at ha
        have := (List.mem_filter.mp ha).2
        simp at this
        simp [this]
      rw [hnil]
      simp

/-- C2, witness: on two equally-ranked tape sources at distances 15 and 10
with no disk source, exactly the distance-10 tape source is selected; on a
mixed disk/tape set, the disk sources are all kept and no tape source. -/
theorem C2_disk_preferred_tape_exclusive_witness :
    (∃ t, select_sources [⟨1, 0, 15, true⟩, ⟨2, 0, 10, true⟩] = [t] ∧
        t ∈ [(⟨1, 0, 15, true⟩ : Source), ⟨2, 0, 10, true⟩] ∧
        t.is_tape = true ∧
        ∀ u ∈ [(⟨1, 0, 15, true⟩ : Source), ⟨2, 0, 10, true⟩],
          u.is_tape = true →
            u.ranking ≤ t.ranking ∧
              (u.ranking = t.ranking → t.distance ≤ u.distance)) ∧
      (select_sources [⟨1, 0, 15, true⟩, ⟨3, 0, 15, false⟩, ⟨4, 0, 10, false⟩]).Perm
        ([(⟨1, 0, 15, true⟩ : Source), ⟨3, 0, 15, false⟩,
          ⟨4, 0, 10, false⟩].filter (fun s => !s.is_tape)) :=
  ⟨(C2_disk_preferred_tape_exclusive
      [⟨1, 0, 15, true⟩, ⟨2, 0, 10, true⟩]).2.1 (by decide) (by decide),
   ((C2_disk_preferred_tape_exclusive
      [⟨1, 0, 15, true⟩, ⟨3, 0, 15, false⟩, ⟨4, 0, 10, false⟩]).1
      (by decide)).1⟩

/-! ### Preparer request pipeline (claims C7, C10) -/

/-- Request lifecycle states (`rucio.db.sqla.constants.RequestState`). -/
inductive RequestState where
  | PREPARING
  | QUEUED
  | SUBMITTED
  | DONE
  | FAILED
deriving DecidableEq, Repr

/-- A backlog entry as the preparer pipeline sees it: the request id, its
destination RSE, the total cost of its resolved path, and its state. -/
structure RequestSource where
  request_id : Nat
  dest_rse_id : Nat
  cost : Nat
  state : RequestState
deriving DecidableEq, Repr

/-- Modelled from the spec: the backlog fetch
`rucio.core.transfer.__list_transfer_requests_and_source_replicas` (not
under the given source tree): deterministically returns this worker's
partition of the backlog in the requested state, bounded by `limit`. -/
def list_transfer_requests_and_source_replicas
    (store : List RequestSource) (total_workers worker_number limit : Nat)
    (request_state : RequestState) : List RequestSource :=
  (store.filter (fun r => r.state == request_state &&
    r.request_id % total_workers == worker_number)).take limit

/-- Modelled from the spec: stage (1), the RSE-membership filter
(`rucio.core.request.rse_lookup_filter`, not under the given source tree):
keep only requests whose destination RSE is in the operator-selected
scope. -/
def rse_lookup_filter (scope : List Nat) (reqs : List RequestSource) :
    List RequestSource :=
  reqs.filter (fun r => scope.contains r.dest_rse_id)

/-- Requests ordered by resolved-path total cost ascending. -/
def costLe (a b : RequestSource) : Prop := a.cost ≤ b.cost

instance : DecidableRel costLe := fun a b => by
  unfold costLe
  exact inferInstance

instance : IsTotal RequestSource costLe := ⟨fun a b => Nat.le_total a.cost b.cost⟩

instance : IsTrans RequestSource costLe := ⟨fun _ _ _ h1 h2 => Nat.le_trans h1 h2⟩

/-- Modelled from the spec: stage (2), the stable minimum-distance sort
(`rucio.core.request.sort_requests_minimum_distance`, not under the given
source tree): stable sort by resolved path total cost ascending. -/
def sort_requests_minimum_distance (reqs : List RequestSource) :
    List RequestSource :=
  reqs.insertionSort costLe

/-- Modelled from the spec: stage (3), the transfer-tool capability filter
(`rucio.core.request.get_transfertool_filter`, not under the given source
tree): drop requests whose destination RSE has no capable transfer tool,
per the external capability lookup keyed by RSE id. -/
def transfertool_filter (supported : Nat → Bool) (reqs : List RequestSource) :
    List RequestSource :=
  reqs.filter (fun r => supported r.dest_rse_id)

/-- Modelled from the spec: `rucio.core.request.reduce_requests` (not under
the given source tree): applies the given stages in sequence. -/
def reduce_requests (req_sources : List RequestSource)
    (stages : List (List RequestSource → List RequestSource)) :
    List RequestSource :=
  stages.foldl (fun acc stage => stage acc) req_sources

/-- Modelled from the spec: `rucio.core.request.preparer_update_requests`
(not under the given source tree): advances each processed request to
QUEUED in the store (the PREPARING → QUEUED lifecycle step) and reports how
many requests were updated. -/
def preparer_update_requests (requests : List RequestSource)
    (store : List RequestSource) : Nat × List RequestSource :=
  (requests.length,
    store.map (fun r =>
      if requests.any (fun q => q.request_id == r.request_id) then
        { r with state := .QUEUED }
      else r))

/-- The observable outcome of one `run_once` invocation: the message it
returns and the request store after its updates. -/
structure RunOnceResult where
  message : String
  store : List RequestSource
deriving DecidableEq, Repr

/-- Embedded from `run_once` in `lib/rucio/daemons/conveyor/preparer.py`:
fetch this worker's PREPARING backlog slice; when it is empty return
'had nothing to do' without touching anything; otherwise reduce the
requests through the stage list `[rse_lookup_filter,
sort_requests_minimum_distance, transfertool_filter]` and apply the
preparer update. -/
def run_once (store : List RequestSource) (scope : List Nat)
    (supported : Nat → Bool) (total_workers worker_number limit : Nat) :
    RunOnceResult :=
  if (list_transfer_requests_and_source_replicas store total_workers
      worker_number limit .PREPARING).isEmpty then
    ⟨"had nothing to do", store⟩
  else
    ⟨"updated " ++
        toString (preparer_update_requests
          (reduce_requests
            (list_transfer_requests_and_source_replicas store total_workers
              worker_number limit .PREPARING)
            [rse_lookup_filter scope, sort_requests_minimum_distance,
              transfertool_filter supported])
          store).fst ++
        "/" ++ toString limit ++ " requests",
      (preparer_update_requests
        (reduce_requests
          (list_transfer_requests_and_source_replicas store total_workers
            worker_number limit .PREPARING)
          [rse_lookup_filter scope, sort_requests_minimum_distance,
            transfertool_filter supported])
        store).snd⟩

/-- C7: the preparer's reduction pipeline applies exactly the three stages
in the order RSE-membership filter, then stable cost-ascending sort, then
transfer-tool capability filter; its output contains only elements of the
input (no stage invents candidates) and is sorted by resolved-path total
cost ascending. -/
theorem C7_pipeline_stage_order :
    ∀ (req_sources : List RequestSource) (scope : List Nat)
      (supported : Nat → Bool),
      reduce_requests req_sources
          [rse_lookup_filter scope, sort_requests_minimum_distance,
            transfertool_filter supported] =
        transfertool_filter supported
          (sort_requests_minimum_distance (rse_lookup_filter scope req_sources)) ∧
      (∀ x ∈ reduce_requests req_sources
          [rse_lookup_filter scope, sort_requests_minimum_distance,
            transfertool_filter supported], x ∈ req_sources) ∧
      (reduce_requests req_sources
          [rse_lookup_filter scope, sort_requests_minimum_distance,
            transfertool_filter supported]).Sorted costLe := by
  intro req_sources scope supported
  refine ⟨rfl, ?_, ?_⟩
  · intro x hx
    unfold reduce_requests at hx
    simp only [List.foldl_cons, List.foldl_nil] at hx
    unfold transfertool_filter at hx
    have hx1 := (List.mem_filter.mp hx).1
    unfold sort_requests_minimum_distance at hx1
    rw [List.mem_insertionSort] at hx1
    unfold rse_lookup_filter at hx1
    exact (List.mem_filter.mp hx1).1
  · unfold reduce_requests
    simp only [List.foldl_cons, List.foldl_nil]
    unfold transfertool_filter sort_requests_minimum_distance
    exact (List.sorted_insertionSort costLe _).filter _

/-- C7, witness: the pipeline facts applied to a three-request backlog with
scope `{10, 20}` and only RSE 10 transfer-tool capable. -/
theorem C7_pipeline_stage_order_witness :
    reduce_requests
        [⟨1, 10, 5, .PREPARING⟩, ⟨2, 20, 3, .PREPARING⟩, ⟨3, 10, 1, .PREPARING⟩]
        [rse_lookup_filter [10, 20], sort_requests_minimum_distance,
          transfertool_filter (fun rse => rse == 10)] =
      transfertool_filter (fun rse => rse == 10)
        (sort_requests_minimum_distance (rse_lookup_filter [10, 20]
          [⟨1, 10, 5, .PREPARING⟩, ⟨2, 20, 3, .PREPARING⟩,
            ⟨3, 10, 1, .PREPARING⟩])) ∧
      (⟨3, 10, 1, .PREPARING⟩ : RequestSource) ∈
        [(⟨1, 10, 5, .PREPARING⟩ : RequestSource), ⟨2, 20, 3, .PREPARING⟩,
          ⟨3, 10, 1, .PREPARING⟩] :=
  ⟨(C7_pipeline_stage_order
      [⟨1, 10, 5, .PREPARING⟩, ⟨2, 20, 3, .PREPARING⟩, ⟨3, 10, 1, .PREPARING⟩]
      [10, 20] (fun rse => rse == 10)).1,
   (C7_pipeline_stage_order
      [⟨1, 10, 5, .PREPARING⟩, ⟨2, 20, 3, .PREPARING⟩, ⟨3, 10, 1, .PREPARING⟩]
      [10, 20] (fun rse => rse == 10)).2.1 ⟨3, 10, 1, .PREPARING⟩ (by decide)⟩

/-- C10: when the backlog fetch of PREPARING requests comes back empty,
`run_once` reports 'had nothing to do' and leaves the request store
completely unchanged — no pipeline stage runs, no request is updated. -/
theorem C10_empty_fetch_no_effect :
    ∀ (store : List RequestSource) (scope : List Nat) (supported : Nat → Bool)
      (total_workers worker_number limit : Nat),
      list_transfer_requests_and_source_replicas store total_workers
          worker_number limit .PREPARING = [] →
      run_once store scope supported total_workers worker_number limit =
        ⟨"had nothing to do", store⟩ := by
  intro store scope supported tw wn lim h
  unfold run_once
  rw [h]
  simp

/-- C10, witness: a store holding only already-queued and submitted
requests yields an empty PREPARING fetch, and `run_once` returns it
untouched. -/
theorem C10_empty_fetch_no_effect_witness :
    run_once [⟨1, 10, 5, .QUEUED⟩, ⟨2, 20, 3, .SUBMITTED⟩] [10] (fun _ => true)
        1 0 100 =
      ⟨"had nothing to do", [⟨1, 10, 5, .QUEUED⟩, ⟨2, 20, 3, .SUBMITTED⟩]⟩ :=
  C10_empty_fetch_no_effect [⟨1, 10, 5, .QUEUED⟩, ⟨2, 20, 3, .SUBMITTED⟩]
    [10] (fun _ => true) 1 0 100 rfl

/-! ### Daemon control loops (claims C8, C9) -/

/-- What one iteration of a daemon loop encounters: the stop flag set, a
clean cycle, a recoverable error during the cycle, or a fatal error. -/
inductive CycleEvent where
  | stopSignal
  | cycleOk
  | cycleRecoverable
  | cycleFatal
deriving DecidableEq, Repr

/-- The externally observable actions of a daemon thread. -/
inductive DaemonAction where
  | liveHeartbeat
  | runCycle
  | logError
  | sleepInterval
  | dieHeartbeat
deriving DecidableEq, Repr

/-- Embedded from the `while not graceful_stop.is_set()` loop of `preparer`
in `lib/rucio/daemons/conveyor/preparer.py`: each iteration heartbeats and
runs one `run_once` cycle; a `RucioException` is caught, logged
('errored with a RucioException, retrying later') and the loop sleeps and
continues; a non-Rucio exception escapes the loop body; `once` breaks after
the first cycle. -/
def preparer_loop (once : Bool) : List CycleEvent → List DaemonAction
  | [] => []
  | .stopSignal :: _ => []
  | .cycleOk :: rest =>
    .liveHeartbeat :: .runCycle ::
      (if once then [] else .sleepInterval :: preparer_loop once rest)
  | .cycleRecoverable :: rest =>
    .liveHeartbeat :: .runCycle :: .logError ::
      (if once then [] else .sleepInterval :: preparer_loop once rest)
  | .cycleFatal :: _ => [.liveHeartbeat, .runCycle]

/-- Embedded from `preparer` in `lib/rucio/daemons/conveyor/preparer.py`:
the whole loop runs inside `try: … finally: heartbeat.die(…)`, so the
heartbeat is deregistered on every exit path of the thread. -/
def preparer (once : Bool) (events : List CycleEvent) : List DaemonAction :=
  preparer_loop once events ++ [.dieHeartbeat]

/-- Embedded from the `while not graceful_stop.is_set()` loop of `stager`
in `lib/rucio/daemons/conveyor/stager.py`: the cycle body is wrapped in
`try: … except Exception: raise`, so any exception raised during a cycle —
recoverable or not — propagates out of the loop.  Returns the performed
actions and whether an exception escaped. -/
def stager_loop (once : Bool) : List CycleEvent → List DaemonAction × Bool
  | [] => ([], false)
  | .stopSignal :: _ => ([], false)
  | .cycleOk :: rest =>
    if once then ([.liveHeartbeat, .runCycle], false)
    else
      (.liveHeartbeat :: .runCycle :: (stager_loop once rest).fst,
        (stager_loop once rest).snd)
  | .cycleRecoverable :: _ => ([.liveHeartbeat, .runCycle], true)
  | .cycleFatal :: _ => ([.liveHeartbeat, .runCycle], true)

/-- Embedded from `stager` in `lib/rucio/daemons/conveyor/stager.py`:
`heartbeat.die(…)` runs after the loop, not in a `finally`, so it is
skipped whenever an exception escapes the loop. -/
def stager (once : Bool) (events : List CycleEvent) : List DaemonAction :=
  (stager_loop once events).fst ++
    (if (stager_loop once events).snd then [] else [.dieHeartbeat])

/-- C8, counterexample: in the stager's continuous loop a recoverable error
during the first cycle does not lead to sleep-and-next-cycle: with further
work pending, only the first cycle's actions are performed and the
exception escapes the loop (`except Exception: raise`), contrary to the
claim that both daemons log and proceed. -/
theorem C8_stager_recoverable_counterexample :
    stager_loop false [.cycleRecoverable, .cycleOk] =
      ([.liveHeartbeat, .runCycle], true) := rfl

/-- C8 (amended): in the preparer's continuous loop a recoverable
`RucioException` during the cycle is logged and the loop proceeds to its
sleep and then to the next cycle; in the stager's continuous loop, by
contrast, any exception raised during the cycle's work propagates and
terminates the loop. -/
theorem C8_recoverable_error_handling (rest : List CycleEvent) :
    preparer_loop false (.cycleRecoverable :: rest) =
      .liveHeartbeat :: .runCycle :: .logError :: .sleepInterval ::
        preparer_loop false rest ∧
      stager_loop false (.cycleRecoverable :: rest) =
        ([.liveHeartbeat, .runCycle], true) :=
  ⟨rfl, rfl⟩

/-- C8, witness: the amended statement applied with one further pending
cycle. -/
theorem C8_recoverable_error_handling_witness :
    preparer_loop false [.cycleRecoverable, .cycleOk] =
      .liveHeartbeat :: .runCycle :: .logError :: .sleepInterval ::
        preparer_loop false [.cycleOk] ∧
      stager_loop false [.cycleRecoverable, .cycleOk] =
        ([.liveHeartbeat, .runCycle], true) :=
  C8_recoverable_error_handling [.cycleOk]

/-- C9, counterexample: when an exception escapes the stager's cycle, the
thread exits without deregistering its heartbeat — `heartbeat.die` is not
reached, contrary to the claim that every termination path deregisters. -/
theorem C9_stager_no_die_counterexample :
    DaemonAction.dieHeartbeat ∉ stager false [.cycleFatal] := by
  decide

/-- C9 (amended): the preparer deregisters its heartbeat on every
termination path (graceful stop, run-once completion, escaping exception —
the `finally` block); the stager deregisters only when its loop ends
without an escaping exception (graceful stop or run-once completion). -/
theorem C9_heartbeat_deregistration :
    (∀ (once : Bool) (events : List CycleEvent),
        DaemonAction.dieHeartbeat ∈ preparer once events) ∧
      (∀ (once : Bool) (events : List CycleEvent),
        (stager_loop once events).snd = false →
        DaemonAction.dieHeartbeat ∈ stager once events) := by
  constructor
  · intro once events
    unfold preparer
    exact List.mem_append_right _ (List.mem_singleton.mpr rfl)
  · intro once events h
    unfold stager
    rw [h]
    simp

/-- C9, witness: the preparer after a fatal first cycle still deregisters;
the stager deregisters after a clean stop. -/
theorem C9_heartbeat_deregistration_witness :
    DaemonAction.dieHeartbeat ∈ preparer false [.cycleFatal] ∧
      DaemonAction.dieHeartbeat ∈ stager false [.cycleOk, .stopSignal] :=
  ⟨C9_heartbeat_deregistration.1 false [.cycleFatal],
   C9_heartbeat_deregistration.2 false [.cycleOk, .stopSignal] rfl⟩

end Rucio
